import Mathlib

/-!
Verification of the link-navigation index (`LinkHandler`) of wiki-tui,
shallowly embedded from `src/ui/article/links.rs`.

Machine integers: `usize` values are modelled as `Nat`; where the Rust code
performs unchecked addition (`current_link + amount` in `move_right`) the
result is taken modulo `2^64`, matching release-mode wrapping semantics;
`saturating_sub` is truncated `Nat` subtraction and `saturating_add` clamps
at `2^64 - 1`. Link ids (`i32`) are modelled as `Int` (only equality on ids
is ever used by the code).
-/

namespace WikiTui

/-- `usize::MAX + 1` on a 64-bit target. -/
def USIZE : Nat := 2 ^ 64

/-- `usize::saturating_add` on a 64-bit target. -/
def satAdd (a b : Nat) : Nat := min (a + b) (USIZE - 1)

/-- A registered link: id plus relative screen coordinates
(struct `Link` in `links.rs`). -/
structure Link where
  id : Int
  x : Nat
  y : Nat
deriving Repr, DecidableEq

/-- Default link used to totalise out-of-range indexing; the reachable-state
invariant (`C1`) shows every index the code uses is in range. -/
def dummyLink : Link := ⟨0, 0, 0⟩

/-- The link selection handler (struct `LinkHandler` in `links.rs`). -/
structure LinkHandler where
  links : List Link
  current_link : Nat
deriving Repr, DecidableEq

namespace LinkHandler

/-- `LinkHandler::new`. -/
def new : LinkHandler := ⟨[], 0⟩

/-- `LinkHandler::registered_links`. -/
def registered_links (h : LinkHandler) : Nat := h.links.length

/-- `LinkHandler::push_link`. -/
def push_link (h : LinkHandler) (id : Int) (x y : Nat) : LinkHandler :=
  { h with links := h.links ++ [⟨id, x, y⟩] }

/-- The y-coordinate of the link at index `i` (out of range reads the dummy). -/
def yAt (links : List Link) (i : Nat) : Nat := (links.getD i dummyLink).y

/-- `LinkHandler::get_current_link`. -/
def get_current_link (h : LinkHandler) : Option Int :=
  if h.links.isEmpty then none
  else some (h.links.getD h.current_link dummyLink).id

/-- `LinkHandler::get_current_link_pos`. -/
def get_current_link_pos (h : LinkHandler) : Option (Nat × Nat) :=
  if h.links.isEmpty then none
  else
    let l := h.links.getD h.current_link dummyLink
    some (l.x, l.y)

/-- The reverse scan of `move_up`: `for i in (0..c).rev()`, returning the
first index (from `c - 1` downward) whose link has `y ≤ minY`. -/
def scanUp (links : List Link) (minY : Nat) : Nat → Option Nat
  | 0 => none
  | c + 1 => if yAt links c ≤ minY then some c else scanUp links minY c

/-- `LinkHandler::move_up`. The target `min_y` is
`self.links[self.current_link].y.saturating_sub(amount)`. -/
def move_up (h : LinkHandler) (amount : Nat) : LinkHandler :=
  if h.links.isEmpty then h
  else
    match scanUp h.links (yAt h.links h.current_link - amount) h.current_link with
    | some i => { h with current_link := i }
    | none => { h with current_link := 0 }

/-- One step per unit of fuel of the forward scan of `move_down`; the fuel
bounds the remaining loop iterations. -/
def scanDownFuel (links : List Link) (minY : Nat) : Nat → Nat → Option Nat
  | 0, _ => none
  | fuel + 1, i =>
    if i < links.length then
      if minY ≤ yAt links i then some i else scanDownFuel links minY fuel (i + 1)
    else none

/-- The forward scan of `move_down`: `for i in c..links.len()`, returning the
first index `i ≥ c` in range whose link has `y ≥ minY`. The loop runs at
most `links.len() - c` times, which is the fuel. -/
def scanDown (links : List Link) (minY i : Nat) : Option Nat :=
  scanDownFuel links minY (links.length - i) i

/-- `LinkHandler::move_down`. The target `min_y` is
`self.links[self.current_link].y.saturating_add(amount)`. -/
def move_down (h : LinkHandler) (amount : Nat) : LinkHandler :=
  if h.links.isEmpty then h
  else
    match scanDown h.links (satAdd (yAt h.links h.current_link) amount) h.current_link with
    | some i => { h with current_link := i }
    | none => { h with current_link := h.links.length - 1 }

/-- `LinkHandler::move_left`. -/
def move_left (h : LinkHandler) (amount : Nat) : LinkHandler :=
  if h.links.isEmpty then h
  else { h with current_link := h.current_link - amount }

/-- `LinkHandler::move_right`. The Rust code adds `current_link + amount`
with plain (non-saturating) addition; on a 64-bit release build this wraps
modulo `2^64`, which the embedding makes explicit. -/
def move_right (h : LinkHandler) (amount : Nat) : LinkHandler :=
  if h.links.isEmpty then h
  else if h.links.length ≤ (h.current_link + amount) % USIZE then
    { h with current_link := h.links.length - 1 }
  else { h with current_link := (h.current_link + amount) % USIZE }

/-- `Iterator::position`: index of the first element satisfying `p`. -/
def findPos (p : Link → Bool) : List Link → Option Nat
  | [] => none
  | l :: ls => if p l then some 0 else (findPos p ls).map (fun i => i + 1)

/-- `LinkHandler::set_current_link`: `position(|l| l.id == id).unwrap_or_default()`. -/
def set_current_link (h : LinkHandler) (id : Int) : LinkHandler :=
  if h.links.isEmpty then h
  else { h with current_link := (findPos (fun l => l.id == id) h.links).getD 0 }

end LinkHandler

/-- One call on a `LinkHandler`, for reasoning about arbitrary call sequences. -/
inductive Op where
  | push (id : Int) (x y : Nat)
  | up (n : Nat)
  | down (n : Nat)
  | left (n : Nat)
  | right (n : Nat)
  | set (id : Int)
deriving Repr

/-- Apply one call. -/
def applyOp (h : LinkHandler) : Op → LinkHandler
  | .push id x y => h.push_link id x y
  | .up n => h.move_up n
  | .down n => h.move_down n
  | .left n => h.move_left n
  | .right n => h.move_right n
  | .set id => h.set_current_link id

/-- The handler obtained from `new()` followed by a sequence of calls. -/
def run (ops : List Op) : LinkHandler := ops.foldl applyOp LinkHandler.new

/-- The selection index is in range whenever links are registered, and is 0
while none are. -/
def Inv (h : LinkHandler) : Prop :=
  h.current_link < h.links.length ∨ (h.links = [] ∧ h.current_link = 0)

/-- Links are in reading order as far as rows go: y-coordinates are
non-decreasing along the list. -/
def SortedY (links : List Link) : Prop :=
  links.Pairwise (fun a b => a.y ≤ b.y)

instance (links : List Link) : Decidable (SortedY links) := by
  unfold SortedY
  infer_instance

/-! Concrete handler states used to instantiate and to refute claims.
`fixtureC7` is the spec's own scenario, built through the public calls;
the others are reachable states written out directly. -/

/-- The spec scenario: L0@(2,0), L1@(1,2), L2@(9,2), L3@(0,5) pushed in
reading order, selection on L2. -/
def fixtureC7 : LinkHandler :=
  ((((LinkHandler.new.push_link 0 2 0).push_link 1 1 2).push_link 2 9 2).push_link
      3 0 5).set_current_link 2

def witC2 : LinkHandler :=
  { links := [⟨0, 2, 0⟩, ⟨1, 1, 2⟩, ⟨2, 9, 2⟩, ⟨3, 0, 5⟩], current_link := 2 }

def witC3 : LinkHandler :=
  { links := [⟨0, 2, 0⟩, ⟨1, 1, 2⟩, ⟨2, 9, 2⟩, ⟨3, 0, 5⟩], current_link := 1 }

def cexC5 : LinkHandler :=
  { links := [⟨0, 0, 0⟩, ⟨1, 0, 1⟩], current_link := 1 }

def witC5 : LinkHandler :=
  { links := [⟨0, 0, 0⟩, ⟨1, 0, 1⟩, ⟨2, 0, 2⟩], current_link := 1 }

def witC6 : LinkHandler :=
  { links := [⟨5, 0, 0⟩, ⟨7, 0, 1⟩], current_link := 0 }

def cexC8 : LinkHandler :=
  { links := [⟨0, 0, 0⟩, ⟨1, 0, 4⟩, ⟨2, 0, 5⟩, ⟨3, 0, 9⟩], current_link := 2 }

def witC8 : LinkHandler :=
  { links := [⟨0, 2, 0⟩, ⟨1, 1, 2⟩, ⟨2, 9, 2⟩, ⟨3, 0, 5⟩], current_link := 2 }

def cexC9 : LinkHandler :=
  { links := [⟨0, 0, 0⟩, ⟨1, 0, 1⟩], current_link := 0 }

def witC9 : LinkHandler :=
  { links := [⟨0, 0, 0⟩, ⟨1, 0, 1⟩, ⟨2, 0, 2⟩], current_link := 0 }

def witC10 : LinkHandler :=
  { links := [⟨0, 0, 0⟩, ⟨1, 0, 4⟩, ⟨2, 0, 5⟩], current_link := 1 }

namespace LinkHandler

theorem yAt_eq_getElem {links : List Link} {i : Nat} (hi : i < links.length) :
    yAt links i = links[i].y := by
  simp only [yAt]
  exact congrArg Link.y (List.getD_eq_getElem _ _ hi)

theorem sortedY_yAt_le {links : List Link} (hs : SortedY links) {i j : Nat}
    (hij : i ≤ j) (hj : j < links.length) : yAt links i ≤ yAt links j := by
  rcases Nat.eq_or_lt_of_le hij with rfl | hlt
  · exact Nat.le_refl _
  · have hi : i < links.length := Nat.lt_trans hlt hj
    rw [yAt_eq_getElem hi, yAt_eq_getElem hj]
    exact List.pairwise_iff_getElem.mp hs i j hi hj hlt

theorem scanUp_some {links : List Link} {t : Nat} :
    ∀ {c i : Nat}, scanUp links t c = some i →
      i < c ∧ yAt links i ≤ t ∧ ∀ j, i < j → j < c → t < yAt links j := by
  intro c
  induction c with
  | zero => intro i hsc; simp [scanUp] at hsc
  | succ c ih =>
    intro i hsc
    rw [scanUp] at hsc
    by_cases hy : yAt links c ≤ t
    · rw [if_pos hy] at hsc
      cases hsc
      exact ⟨Nat.lt_succ_self c, hy, fun j hj1 hj2 => absurd hj1 (by omega)⟩
    · rw [if_neg hy] at hsc
      obtain ⟨h1, h2, h3⟩ := ih hsc
      refine ⟨Nat.lt_succ_of_lt h1, h2, fun j hj1 hj2 => ?_⟩
      rcases Nat.lt_or_ge j c with hlt | hge
      · exact h3 j hj1 hlt
      · have hjc : j = c := by omega
        subst hjc
        exact Nat.lt_of_not_le hy

theorem scanUp_none {links : List Link} {t : Nat} :
    ∀ {c : Nat}, scanUp links t c = none → ∀ j, j < c → t < yAt links j := by
  intro c
  induction c with
  | zero => intro _ j hj; omega
  | succ c ih =>
    intro hsc j hj
    rw [scanUp] at hsc
    by_cases hy : yAt links c ≤ t
    · rw [if_pos hy] at hsc; cases hsc
    · rw [if_neg hy] at hsc
      rcases Nat.lt_or_ge j c with hlt | hge
      · exact ih hsc j hlt
      · have hjc : j = c := by omega
        subst hjc
        exact Nat.lt_of_not_le hy

theorem scanUp_isSome_of_exists {links : List Link} {t c : Nat}
    (hex : ∃ i, i < c ∧ yAt links i ≤ t) :
    ∃ i, scanUp links t c = some i := by
  cases hsc : scanUp links t c with
  | some i => exact ⟨i, rfl⟩
  | none =>
    obtain ⟨i, hic, hit⟩ := hex
    exact absurd hit (Nat.not_le_of_lt (scanUp_none hsc i hic))

theorem scanDownFuel_some {links : List Link} {t : Nat} :
    ∀ fuel {i j : Nat}, links.length - i ≤ fuel →
      scanDownFuel links t fuel i = some j →
      i ≤ j ∧ j < links.length ∧ t ≤ yAt links j ∧
        ∀ k, i ≤ k → k < j → yAt links k < t := by
  intro fuel
  induction fuel with
  | zero =>
    intro i j hd hsc
    rw [scanDownFuel] at hsc
    cases hsc
  | succ fuel ih =>
    intro i j hd hsc
    rw [scanDownFuel] at hsc
    by_cases hi : i < links.length
    · rw [if_pos hi] at hsc
      by_cases hy : t ≤ yAt links i
      · rw [if_pos hy] at hsc
        cases hsc
        exact ⟨Nat.le_refl _, hi, hy, fun k hk1 hk2 => absurd hk1 (by omega)⟩
      · rw [if_neg hy] at hsc
        obtain ⟨h1, h2, h3, h4⟩ := ih (by omega) hsc
        refine ⟨by omega, h2, h3, fun k hk1 hk2 => ?_⟩
        rcases Nat.lt_or_ge i k with hlt | hge
        · exact h4 k (by omega) hk2
        · have hki : k = i := by omega
          subst hki
          exact Nat.lt_of_not_le hy
    · rw [if_neg hi] at hsc
      cases hsc

theorem scanDown_some {links : List Link} {t i j : Nat}
    (hsc : scanDown links t i = some j) :
    i ≤ j ∧ j < links.length ∧ t ≤ yAt links j ∧
      ∀ k, i ≤ k → k < j → yAt links k < t :=
  scanDownFuel_some (links.length - i) (Nat.le_refl _) hsc

theorem scanDownFuel_none {links : List Link} {t : Nat} :
    ∀ fuel {i : Nat}, links.length - i ≤ fuel →
      scanDownFuel links t fuel i = none →
      ∀ k, i ≤ k → k < links.length → yAt links k < t := by
  intro fuel
  induction fuel with
  | zero =>
    intro i hd _ k hk1 hk2
    omega
  | succ fuel ih =>
    intro i hd hsc k hk1 hk2
    rw [scanDownFuel] at hsc
    by_cases hi : i < links.length
    · rw [if_pos hi] at hsc
      by_cases hy : t ≤ yAt links i
      · rw [if_pos hy] at hsc; cases hsc
      · rw [if_neg hy] at hsc
        rcases Nat.lt_or_ge i k with hlt | hge
        · exact ih (by omega) hsc k (by omega) hk2
        · have hki : k = i := by omega
          subst hki
          exact Nat.lt_of_not_le hy
    · omega

theorem scanDown_none {links : List Link} {t i : Nat}
    (hsc : scanDown links t i = none) :
    ∀ k, i ≤ k → k < links.length → yAt links k < t :=
  scanDownFuel_none (links.length - i) (Nat.le_refl _) hsc

theorem scanDown_self {links : List Link} {t i : Nat} (hi : i < links.length)
    (ht : t ≤ yAt links i) : scanDown links t i = some i := by
  obtain ⟨f, hf⟩ : ∃ f, links.length - i = f + 1 :=
    ⟨links.length - i - 1, by omega⟩
  rw [scanDown, hf, scanDownFuel, if_pos hi, if_pos ht]

theorem scanDown_isSome_of_exists {links : List Link} {t i : Nat}
    (hex : ∃ k, i ≤ k ∧ k < links.length ∧ t ≤ yAt links k) :
    ∃ j, scanDown links t i = some j := by
  cases hsc : scanDown links t i with
  | some j => exact ⟨j, rfl⟩
  | none =>
    obtain ⟨k, hk1, hk2, hk3⟩ := hex
    exact absurd hk3 (Nat.not_le_of_lt (scanDown_none hsc k hk1 hk2))

theorem findPos_some {p : Link → Bool} :
    ∀ {ls : List Link} {i : Nat}, findPos p ls = some i →
      i < ls.length ∧ p (ls.getD i dummyLink) = true ∧
        ∀ j, j < i → p (ls.getD j dummyLink) = false := by
  intro ls
  induction ls with
  | nil => intro i hf; simp [findPos] at hf
  | cons l ls ih =>
    intro i hf
    rw [findPos] at hf
    by_cases hp : p l
    · rw [if_pos hp] at hf
      cases hf
      exact ⟨Nat.succ_pos _, hp, fun j hj => absurd hj (by omega)⟩
    · rw [if_neg hp] at hf
      cases hi : findPos p ls with
      | none => rw [hi] at hf; simp at hf
      | some i0 =>
        rw [hi] at hf
        have hii : i = i0 + 1 := by simpa using hf.symm
        subst hii
        obtain ⟨h1, h2, h3⟩ := ih hi
        refine ⟨by simpa using Nat.succ_lt_succ h1, by simpa using h2, fun j hj => ?_⟩
        cases j with
        | zero => simpa using Bool.of_not_eq_true hp
        | succ j0 => simpa using h3 j0 (by omega)

theorem findPos_none {p : Link → Bool} :
    ∀ {ls : List Link}, findPos p ls = none →
      ∀ j, j < ls.length → p (ls.getD j dummyLink) = false := by
  intro ls
  induction ls with
  | nil => intro _ j hj; simp at hj
  | cons l ls ih =>
    intro hf j hj
    rw [findPos] at hf
    by_cases hp : p l
    · rw [if_pos hp] at hf; cases hf
    · rw [if_neg hp] at hf
      cases j with
      | zero => simpa using Bool.of_not_eq_true hp
      | succ j0 =>
        cases hi : findPos p ls with
        | some i0 => rw [hi] at hf; simp at hf
        | none => simpa using ih hi j0 (by simpa using Nat.lt_of_succ_lt_succ hj)

theorem isEmpty_eq_false_of_ne_nil {links : List Link} (hne : links ≠ []) :
    links.isEmpty = false := by
  cases links with
  | nil => exact absurd rfl hne
  | cons a l => rfl

theorem length_pos_of_not_isEmpty {links : List Link} (he : ¬ links.isEmpty = true) :
    0 < links.length := by
  cases links with
  | nil => simp at he
  | cons a l => simp

theorem eq_of_fields {x y : LinkHandler} (h1 : x.links = y.links)
    (h2 : x.current_link = y.current_link) : x = y := by
  cases x
  cases y
  cases h1
  cases h2
  rfl

theorem move_up_of_empty {h : LinkHandler} {n : Nat} (he : h.links.isEmpty = true) :
    h.move_up n = h := by
  rw [move_up, if_pos he]

theorem move_down_of_empty {h : LinkHandler} {n : Nat} (he : h.links.isEmpty = true) :
    h.move_down n = h := by
  rw [move_down, if_pos he]

theorem move_left_of_empty {h : LinkHandler} {n : Nat} (he : h.links.isEmpty = true) :
    h.move_left n = h := by
  rw [move_left, if_pos he]

theorem move_right_of_empty {h : LinkHandler} {n : Nat} (he : h.links.isEmpty = true) :
    h.move_right n = h := by
  rw [move_right, if_pos he]

theorem set_current_link_of_empty {h : LinkHandler} {id : Int}
    (he : h.links.isEmpty = true) : h.set_current_link id = h := by
  rw [set_current_link, if_pos he]

theorem move_up_links (h : LinkHandler) (n : Nat) : (h.move_up n).links = h.links := by
  by_cases he : h.links.isEmpty = true
  · rw [move_up_of_empty he]
  · rw [move_up, if_neg he]
    cases hsc : scanUp h.links (yAt h.links h.current_link - n) h.current_link <;> rfl

theorem move_down_links (h : LinkHandler) (n : Nat) : (h.move_down n).links = h.links := by
  by_cases he : h.links.isEmpty = true
  · rw [move_down_of_empty he]
  · rw [move_down, if_neg he]
    cases hsc : scanDown h.links (satAdd (yAt h.links h.current_link) n) h.current_link <;>
      rfl

theorem move_right_links (h : LinkHandler) (n : Nat) : (h.move_right n).links = h.links := by
  by_cases he : h.links.isEmpty = true
  · rw [move_right_of_empty he]
  · rw [move_right, if_neg he]
    by_cases hs : h.links.length ≤ (h.current_link + n) % USIZE
    · rw [if_pos hs]
    · rw [if_neg hs]

theorem move_up_current_of_scan (h : LinkHandler) (n : Nat) (hne : h.links ≠ []) {i : Nat}
    (hsc : scanUp h.links (yAt h.links h.current_link - n) h.current_link = some i) :
    (h.move_up n).current_link = i := by
  rw [move_up, if_neg (by simp [isEmpty_eq_false_of_ne_nil hne]), hsc]

theorem move_down_current_of_scan (h : LinkHandler) (n : Nat) (hne : h.links ≠ []) {j : Nat}
    (hsc : scanDown h.links (satAdd (yAt h.links h.current_link) n) h.current_link = some j) :
    (h.move_down n).current_link = j := by
  rw [move_down, if_neg (by simp [isEmpty_eq_false_of_ne_nil hne]), hsc]

theorem move_right_current (h : LinkHandler) (n : Nat) (he : h.links.isEmpty = false)
    (hno : h.current_link + n < USIZE) :
    (h.move_right n).current_link = min (h.current_link + n) (h.links.length - 1) := by
  have hlen : 0 < h.links.length := length_pos_of_not_isEmpty (by simp [he])
  rw [move_right, if_neg (by simp [he])]
  rw [Nat.mod_eq_of_lt hno]
  by_cases hs : h.links.length ≤ h.current_link + n
  · rw [if_pos hs]
    show h.links.length - 1 = _
    omega
  · rw [if_neg hs]
    show h.current_link + n = _
    omega

theorem inv_move_up {h : LinkHandler} (hI : Inv h) (n : Nat) : Inv (h.move_up n) := by
  by_cases he : h.links.isEmpty = true
  · rw [move_up, if_pos he]
    exact hI
  · have hlen : 0 < h.links.length := length_pos_of_not_isEmpty he
    rw [move_up, if_neg he]
    cases hsc : scanUp h.links (yAt h.links h.current_link - n) h.current_link with
    | some i =>
      left
      show i < h.links.length
      rcases hI with hlt | ⟨hnil, _⟩
      · exact Nat.lt_trans (scanUp_some hsc).1 hlt
      · rw [hnil] at hlen; simp at hlen
    | none =>
      left
      exact hlen

theorem inv_move_down {h : LinkHandler} (hI : Inv h) (n : Nat) : Inv (h.move_down n) := by
  by_cases he : h.links.isEmpty = true
  · rw [move_down, if_pos he]
    exact hI
  · have hlen : 0 < h.links.length := length_pos_of_not_isEmpty he
    rw [move_down, if_neg he]
    cases hsc : scanDown h.links (satAdd (yAt h.links h.current_link) n) h.current_link with
    | some i =>
      left
      exact (scanDown_some hsc).2.1
    | none =>
      left
      show h.links.length - 1 < h.links.length
      omega

theorem inv_move_left {h : LinkHandler} (hI : Inv h) (n : Nat) : Inv (h.move_left n) := by
  by_cases he : h.links.isEmpty = true
  · rw [move_left, if_pos he]
    exact hI
  · have hlen : 0 < h.links.length := length_pos_of_not_isEmpty he
    rw [move_left, if_neg he]
    rcases hI with hlt | ⟨hnil, _⟩
    · left
      show h.current_link - n < h.links.length
      omega
    · rw [hnil] at hlen; simp at hlen

theorem inv_move_right {h : LinkHandler} (hI : Inv h) (n : Nat) : Inv (h.move_right n) := by
  by_cases he : h.links.isEmpty = true
  · rw [move_right, if_pos he]
    exact hI
  · have hlen : 0 < h.links.length := length_pos_of_not_isEmpty he
    rw [move_right, if_neg he]
    by_cases hs : h.links.length ≤ (h.current_link + n) % USIZE
    · rw [if_pos hs]
      left
      show h.links.length - 1 < h.links.length
      omega
    · rw [if_neg hs]
      left
      exact Nat.lt_of_not_le hs

theorem inv_set_current_link {h : LinkHandler} (hI : Inv h) (id : Int) :
    Inv (h.set_current_link id) := by
  by_cases he : h.links.isEmpty = true
  · rw [set_current_link, if_pos he]
    exact hI
  · have hlen : 0 < h.links.length := length_pos_of_not_isEmpty he
    rw [set_current_link, if_neg he]
    cases hf : findPos (fun l => l.id == id) h.links with
    | some i =>
      left
      show (Option.getD (some i) 0) < h.links.length
      simpa using (findPos_some hf).1
    | none =>
      left
      show (Option.getD (none : Option Nat) 0) < h.links.length
      simpa using hlen

theorem inv_push_link {h : LinkHandler} (hI : Inv h) (id : Int) (x y : Nat) :
    Inv (h.push_link id x y) := by
  left
  show h.current_link < (h.links ++ [({ id := id, x := x, y := y } : Link)]).length
  rcases hI with hlt | ⟨_, hcur⟩
  · simp
    omega
  · simp [hcur]

end LinkHandler

theorem inv_applyOp {h : LinkHandler} (hI : Inv h) (op : Op) : Inv (applyOp h op) := by
  cases op with
  | push id x y => exact LinkHandler.inv_push_link hI id x y
  | up n => exact LinkHandler.inv_move_up hI n
  | down n => exact LinkHandler.inv_move_down hI n
  | left n => exact LinkHandler.inv_move_left hI n
  | right n => exact LinkHandler.inv_move_right hI n
  | set id => exact LinkHandler.inv_set_current_link hI id

theorem inv_foldl (ops : List Op) {h : LinkHandler} (hI : Inv h) :
    Inv (ops.foldl applyOp h) := by
  induction ops generalizing h with
  | nil => exact hI
  | cons op ops ih => exact ih (inv_applyOp hI op)

theorem inv_run (ops : List Op) : Inv (run ops) := by
  have hI : Inv LinkHandler.new := by
    unfold Inv
    exact Or.inr ⟨rfl, rfl⟩
  exact inv_foldl ops hI

namespace LinkHandler

/-- C1: for every handler built by `new()` followed by any sequence of
`push_link`, `move_up`, `move_down`, `move_left`, `move_right` and
`set_current_link` calls, whenever the link list is non-empty the current
selection index is strictly less than the number of registered links, so no
operation leaves the index out of bounds. -/
theorem run_current_link_valid (ops : List Op) (hne : (run ops).links ≠ []) :
    (run ops).current_link < (run ops).registered_links := by
  rcases inv_run ops with hlt | ⟨hnil, _⟩
  · exact hlt
  · exact absurd hnil hne

/-- C1 witness: a concrete call sequence with two pushed links. -/
theorem run_current_link_valid_witness :
    (run [Op.push 0 2 0, Op.push 1 1 2]).links ≠ [] ∧
      (run [Op.push 0 2 0, Op.push 1 1 2]).current_link <
        (run [Op.push 0 2 0, Op.push 1 1 2]).registered_links :=
  ⟨by decide, run_current_link_valid [Op.push 0 2 0, Op.push 1 1 2] (by decide)⟩

/-- C2: on a non-empty handler, `move_up n` keeps the link list unchanged
and, with target `y_cur - n` (saturating), either moves the selection to an
index strictly before the old one whose y is at or below the target while
every strictly closer preceding index is above the target (the first hit of
the reverse scan), or, when no preceding index is at or below the target,
moves the selection to index 0. -/
theorem move_up_spec (h : LinkHandler) (n : Nat) (hne : h.links ≠ []) :
    (h.move_up n).links = h.links ∧
    (((h.move_up n).current_link < h.current_link ∧
        yAt h.links (h.move_up n).current_link ≤ yAt h.links h.current_link - n ∧
        (∀ j, (h.move_up n).current_link < j → j < h.current_link →
          yAt h.links h.current_link - n < yAt h.links j)) ∨
      ((h.move_up n).current_link = 0 ∧
        (∀ j, j < h.current_link →
          yAt h.links h.current_link - n < yAt h.links j))) := by
  have he := isEmpty_eq_false_of_ne_nil hne
  refine ⟨move_up_links h n, ?_⟩
  cases hsc : scanUp h.links (yAt h.links h.current_link - n) h.current_link with
  | some i =>
    obtain ⟨h1, h2, h3⟩ := scanUp_some hsc
    rw [move_up_current_of_scan h n hne hsc]
    exact Or.inl ⟨h1, h2, h3⟩
  | none =>
    have hz : (h.move_up n).current_link = 0 := by
      rw [move_up, if_neg (by simp [he]), hsc]
    rw [hz]
    exact Or.inr ⟨rfl, scanUp_none hsc⟩

/-- C2 witness: the four-link fixture with the selection on index 2,
moving up by 1. -/
theorem move_up_spec_witness :
    witC2.links ≠ [] ∧
      ((witC2.move_up 1).links = witC2.links ∧
        (((witC2.move_up 1).current_link < witC2.current_link ∧
            yAt witC2.links (witC2.move_up 1).current_link ≤
              yAt witC2.links witC2.current_link - 1 ∧
            (∀ j, (witC2.move_up 1).current_link < j → j < witC2.current_link →
              yAt witC2.links witC2.current_link - 1 < yAt witC2.links j)) ∨
          ((witC2.move_up 1).current_link = 0 ∧
            (∀ j, j < witC2.current_link →
              yAt witC2.links witC2.current_link - 1 < yAt witC2.links j)))) :=
  ⟨by decide, move_up_spec witC2 1 (by decide)⟩

/-- C3: on a non-empty handler, `move_down n` keeps the link list unchanged
and, with target `y_cur + n` (saturating at `usize::MAX`), either moves the
selection to the first index at or after the old one whose y is at or above
the target (all indices strictly between being below it), or, when no such
index exists, moves the selection to the last valid index. -/
theorem move_down_spec (h : LinkHandler) (n : Nat) (hne : h.links ≠ []) :
    (h.move_down n).links = h.links ∧
    ((h.current_link ≤ (h.move_down n).current_link ∧
        (h.move_down n).current_link < h.links.length ∧
        satAdd (yAt h.links h.current_link) n ≤
          yAt h.links (h.move_down n).current_link ∧
        (∀ k, h.current_link ≤ k → k < (h.move_down n).current_link →
          yAt h.links k < satAdd (yAt h.links h.current_link) n)) ∨
      ((h.move_down n).current_link = h.links.length - 1 ∧
        (∀ k, h.current_link ≤ k → k < h.links.length →
          yAt h.links k < satAdd (yAt h.links h.current_link) n))) := by
  have he := isEmpty_eq_false_of_ne_nil hne
  refine ⟨move_down_links h n, ?_⟩
  cases hsc : scanDown h.links (satAdd (yAt h.links h.current_link) n) h.current_link with
  | some j =>
    obtain ⟨h1, h2, h3, h4⟩ := scanDown_some hsc
    rw [move_down_current_of_scan h n hne hsc]
    exact Or.inl ⟨h1, h2, h3, h4⟩
  | none =>
    have hz : (h.move_down n).current_link = h.links.length - 1 := by
      rw [move_down, if_neg (by simp [he]), hsc]
    rw [hz]
    exact Or.inr ⟨rfl, scanDown_none hsc⟩

/-- C3 witness: the four-link fixture with the selection on index 1,
moving down by 2. -/
theorem move_down_spec_witness :
    witC3.links ≠ [] ∧
      ((witC3.move_down 2).links = witC3.links ∧
        ((witC3.current_link ≤ (witC3.move_down 2).current_link ∧
            (witC3.move_down 2).current_link < witC3.links.length ∧
            satAdd (yAt witC3.links witC3.current_link) 2 ≤
              yAt witC3.links (witC3.move_down 2).current_link ∧
            (∀ k, witC3.current_link ≤ k → k < (witC3.move_down 2).current_link →
              yAt witC3.links k < satAdd (yAt witC3.links witC3.current_link) 2)) ∨
          ((witC3.move_down 2).current_link = witC3.links.length - 1 ∧
            (∀ k, witC3.current_link ≤ k → k < witC3.links.length →
              yAt witC3.links k < satAdd (yAt witC3.links witC3.current_link) 2)))) :=
  ⟨by decide, move_down_spec witC3 2 (by decide)⟩

/-- C4: on a handler with zero registered links, every mutating operation
returns the handler unchanged, `registered_links` is 0, and both getters
return `none`. -/
theorem empty_handler_spec (h : LinkHandler) (he : h.links = []) :
    (∀ n, h.move_up n = h) ∧ (∀ n, h.move_down n = h) ∧ (∀ n, h.move_left n = h) ∧
      (∀ n, h.move_right n = h) ∧ (∀ id, h.set_current_link id = h) ∧
      h.registered_links = 0 ∧ h.get_current_link = none ∧
      h.get_current_link_pos = none := by
  have hb : h.links.isEmpty = true := by rw [he]; rfl
  refine ⟨fun n => move_up_of_empty hb, fun n => move_down_of_empty hb,
    fun n => move_left_of_empty hb, fun n => move_right_of_empty hb,
    fun id => set_current_link_of_empty hb, ?_, ?_, ?_⟩
  · rw [registered_links, he]
    rfl
  · rw [get_current_link, if_pos hb]
  · rw [get_current_link_pos, if_pos hb]

/-- C5 counterexample: with two links registered and the second selected,
`move_right (2^64 - 1)` wraps the unchecked index addition modulo `2^64`
and ends on index 0, not on `min (current + n) (last index)` = 1 as the
claim demands for every amount. -/
theorem move_right_overflow_cex :
    (cexC5.move_right (2 ^ 64 - 1)).current_link ≠
      min (cexC5.current_link + (2 ^ 64 - 1)) (cexC5.links.length - 1) := by
  decide

/-- C5 amended: on a non-empty handler, `move_left n` sets the selection to
`current - n` (saturating) for every amount `n`, including overflow-sized
ones; and `move_right n` sets it to `min (current + n) (last index)`
whenever `current + n` does not overflow (is below `2^64`); for larger
amounts the unchecked addition in `move_right` wraps instead of
saturating. -/
theorem lateral_move_spec (h : LinkHandler) (hne : h.links ≠ []) :
    (∀ n, (h.move_left n).current_link = h.current_link - n) ∧
      (∀ n, h.current_link + n < USIZE →
        (h.move_right n).current_link =
          min (h.current_link + n) (h.links.length - 1)) := by
  have he := isEmpty_eq_false_of_ne_nil hne
  constructor
  · intro n
    rw [move_left, if_neg (by simp [he])]
  · intro n hno
    exact move_right_current h n he hno

/-- C5 witness: a three-link handler with the selection on index 1. -/
theorem lateral_move_spec_witness :
    witC5.links ≠ [] ∧
      ((∀ n, (witC5.move_left n).current_link = witC5.current_link - n) ∧
        (∀ n, witC5.current_link + n < USIZE →
          (witC5.move_right n).current_link =
            min (witC5.current_link + n) (witC5.links.length - 1))) :=
  ⟨by decide, lateral_move_spec witC5 (by decide)⟩

/-- C6: on a non-empty handler, `set_current_link id` keeps the link list
unchanged and either selects the first registered index whose id equals the
argument, or, when no occurrence has that id, selects index 0. -/
theorem set_current_link_spec (h : LinkHandler) (id : Int) (hne : h.links ≠ []) :
    (h.set_current_link id).links = h.links ∧
    (((h.set_current_link id).current_link < h.links.length ∧
        (h.links.getD (h.set_current_link id).current_link dummyLink).id = id ∧
        (∀ j, j < (h.set_current_link id).current_link →
          (h.links.getD j dummyLink).id ≠ id)) ∨
      ((h.set_current_link id).current_link = 0 ∧
        (∀ j, j < h.links.length → (h.links.getD j dummyLink).id ≠ id))) := by
  have he := isEmpty_eq_false_of_ne_nil hne
  rw [set_current_link, if_neg (by simp [he])]
  cases hf : findPos (fun l => l.id == id) h.links with
  | some i =>
    obtain ⟨h1, h2, h3⟩ := findPos_some hf
    refine ⟨rfl, Or.inl ⟨h1, ?_, ?_⟩⟩
    · simpa using h2
    · intro j hj
      simpa using h3 j hj
  | none =>
    refine ⟨rfl, Or.inr ⟨rfl, ?_⟩⟩
    intro j hj
    simpa using findPos_none hf j hj

/-- C6 witness: two links with ids 5 and 7, selecting by id 7. -/
theorem set_current_link_spec_witness :
    witC6.links ≠ [] ∧
      ((witC6.set_current_link 7).links = witC6.links ∧
        (((witC6.set_current_link 7).current_link < witC6.links.length ∧
            (witC6.links.getD (witC6.set_current_link 7).current_link dummyLink).id =
              7 ∧
            (∀ j, j < (witC6.set_current_link 7).current_link →
              (witC6.links.getD j dummyLink).id ≠ 7)) ∨
          ((witC6.set_current_link 7).current_link = 0 ∧
            (∀ j, j < witC6.links.length →
              (witC6.links.getD j dummyLink).id ≠ 7)))) :=
  ⟨by decide, set_current_link_spec witC6 7 (by decide)⟩

/-- C7 counterexample: in the spec scenario (L0@(2,0), L1@(1,2), L2@(9,2),
L3@(0,5), selection on L2), `move_up 1` does not select L1: the target row
is 1, L1 sits at y = 2 > 1 and fails the scan test. -/
theorem fixture_move_up_not_L1 :
    (fixtureC7.move_up 1).get_current_link ≠ some 1 := by
  decide

/-- C7 amended: in that scenario `move_up 1` selects L0 (index 0), the
nearest preceding occurrence with y at or below the target row 1. -/
theorem fixture_move_up_selects_L0 :
    (fixtureC7.move_up 1).get_current_link = some 0 ∧
      (fixtureC7.move_up 1).current_link = 0 := by
  decide

/-- C8 counterexample: links in reading order at rows 0, 4, 5, 9 with the
selection on index 2 (neither topmost nor bottommost); `move_up 3` then
`move_down 3` lands on the link at y = 4, not on a link at the starting
y = 5. -/
theorem up_down_same_y_cex :
    SortedY cexC8.links ∧ 0 < cexC8.current_link ∧
      cexC8.current_link + 1 < cexC8.links.length ∧
      yAt ((cexC8.move_up 3).move_down 3).links
          ((cexC8.move_up 3).move_down 3).current_link ≠
        yAt cexC8.links cexC8.current_link := by
  decide

/-- C8 amended: for links in reading order and a selection neither topmost
nor bottommost, if the amount does not exceed the starting y and some
preceding link sits at or above the target row, then `move_up n` followed
by `move_down n` lands on a link whose y is at most the starting y (it need
not equal it). -/
theorem up_down_y_le (h : LinkHandler) (n : Nat) (hsort : SortedY h.links)
    (hc : h.current_link < h.links.length) (htop : 0 < h.current_link)
    (hbot : h.current_link + 1 < h.links.length)
    (hamt : n ≤ yAt h.links h.current_link)
    (hex : ∃ i, i < h.current_link ∧
      yAt h.links i ≤ yAt h.links h.current_link - n) :
    yAt ((h.move_up n).move_down n).links
        ((h.move_up n).move_down n).current_link ≤
      yAt h.links h.current_link := by
  have hne : h.links ≠ [] := by
    intro hnil
    rw [hnil] at hc
    simp at hc
  obtain ⟨i, hi⟩ := scanUp_isSome_of_exists hex
  obtain ⟨hi1, hi2, _⟩ := scanUp_some hi
  have hupc : (h.move_up n).current_link = i := move_up_current_of_scan h n hne hi
  have hupl : (h.move_up n).links = h.links := move_up_links h n
  have hta : satAdd (yAt h.links i) n ≤ yAt h.links h.current_link := by
    have hsum : yAt h.links i + n ≤ yAt h.links h.current_link := by omega
    exact Nat.le_trans (Nat.min_le_left _ _) hsum
  obtain ⟨j, hj⟩ := scanDown_isSome_of_exists
    ⟨h.current_link, Nat.le_of_lt hi1, hc, hta⟩
  obtain ⟨hji, hjlen, hjy, hjmin⟩ := scanDown_some hj
  have hjc : j ≤ h.current_link := by
    by_contra hgt
    push_neg at hgt
    exact absurd hta
      (Nat.not_le_of_lt (hjmin h.current_link (Nat.le_of_lt hi1) hgt))
  have hdc : ((h.move_up n).move_down n).current_link = j := by
    apply move_down_current_of_scan (h.move_up n) n
    · rw [hupl]
      exact hne
    · rw [hupl, hupc]
      exact hj
  have hdl : ((h.move_up n).move_down n).links = (h.move_up n).links :=
    move_down_links _ n
  rw [hdl, hupl, hdc]
  exact sortedY_yAt_le hsort hjc hc

/-- C8 witness: the four-link scenario fixture at index 2 with amount 1;
the round trip ends at y = 2, the starting y. -/
theorem up_down_y_le_witness :
    SortedY witC8.links ∧ witC8.current_link < witC8.links.length ∧
      0 < witC8.current_link ∧ witC8.current_link + 1 < witC8.links.length ∧
      1 ≤ yAt witC8.links witC8.current_link ∧
      (∃ i, i < witC8.current_link ∧
        yAt witC8.links i ≤ yAt witC8.links witC8.current_link - 1) ∧
      yAt ((witC8.move_up 1).move_down 1).links
          ((witC8.move_up 1).move_down 1).current_link ≤
        yAt witC8.links witC8.current_link :=
  ⟨by decide, by decide, by decide, by decide, by decide, ⟨0, by decide⟩,
    up_down_y_le witC8 1 (by decide) (by decide) (by decide) (by decide) (by decide)
      ⟨0, by decide⟩⟩

/-- C9 counterexample: starting from index 0 of a two-link handler,
`move_right (2^64 - 1)` twice ends on index 0, while the single combined
move ends on index 1 — the unchecked addition wraps, so composition fails
for amounts near the maximum machine integer. -/
theorem move_right_compose_cex :
    ((cexC9.move_right (2 ^ 64 - 1)).move_right (2 ^ 64 - 1)).current_link ≠
      (cexC9.move_right ((2 ^ 64 - 1) + (2 ^ 64 - 1))).current_link := by
  decide

/-- C9 amended: `move_right a` then `move_right b` equals the single call
`move_right (a + b)` whenever `current + a + b` does not overflow (is below
`2^64`). -/
theorem move_right_compose (h : LinkHandler) (a b : Nat)
    (hno : h.current_link + a + b < USIZE) :
    (h.move_right a).move_right b = h.move_right (a + b) := by
  by_cases he : h.links.isEmpty = true
  · simp only [move_right_of_empty he]
  · have he' : h.links.isEmpty = false := by
      cases hb : h.links.isEmpty
      · rfl
      · exact absurd hb he
    have hlen : 0 < h.links.length := length_pos_of_not_isEmpty he
    have h1l : (h.move_right a).links = h.links := move_right_links h a
    have h1 : (h.move_right a).current_link =
        min (h.current_link + a) (h.links.length - 1) :=
      move_right_current h a he' (by omega)
    have h2 : ((h.move_right a).move_right b).current_link =
        min ((h.move_right a).current_link + b)
          ((h.move_right a).links.length - 1) := by
      apply move_right_current
      · rw [h1l]
        exact he'
      · rw [h1]
        omega
    have h3 : (h.move_right (a + b)).current_link =
        min (h.current_link + (a + b)) (h.links.length - 1) :=
      move_right_current h (a + b) he' (by omega)
    apply eq_of_fields
    · rw [move_right_links, move_right_links, move_right_links]
    · rw [h2, h1, h1l, h3]
      omega

/-- C9 witness: a three-link handler moved right by 1 then by 5. -/
theorem move_right_compose_witness :
    witC9.current_link + 1 + 5 < USIZE ∧
      (witC9.move_right 1).move_right 5 = witC9.move_right (1 + 5) :=
  ⟨by decide, move_right_compose witC9 1 5 (by decide)⟩

/-- C10: for links in reading order, a valid in-range selection with a
positive index and a y below `usize::MAX`, `move_down 0` is a no-op while
`move_up 0` moves the selection back to index `current - 1`, so a
zero-amount up-move is not a no-op. -/
theorem zero_amount_moves (h : LinkHandler) (hsort : SortedY h.links)
    (hc : h.current_link < h.links.length) (hpos : 0 < h.current_link)
    (hy : yAt h.links h.current_link < USIZE) :
    h.move_down 0 = h ∧ (h.move_up 0).current_link = h.current_link - 1 ∧
      h.move_up 0 ≠ h := by
  have hne : h.links ≠ [] := by
    intro hnil
    rw [hnil] at hc
    simp at hc
  have hsat : satAdd (yAt h.links h.current_link) 0 = yAt h.links h.current_link := by
    unfold satAdd
    omega
  have hscd : scanDown h.links (satAdd (yAt h.links h.current_link) 0) h.current_link =
      some h.current_link := by
    rw [hsat]
    exact scanDown_self hc (Nat.le_refl _)
  have hdown : h.move_down 0 = h :=
    eq_of_fields (move_down_links h 0) (move_down_current_of_scan h 0 hne hscd)
  have hscu : scanUp h.links (yAt h.links h.current_link - 0) h.current_link =
      some (h.current_link - 1) := by
    obtain ⟨c0, hc0⟩ : ∃ c0, h.current_link = c0 + 1 :=
      ⟨h.current_link - 1, by omega⟩
    have hy0 : yAt h.links c0 ≤ yAt h.links h.current_link - 0 := by
      have := sortedY_yAt_le hsort (show c0 ≤ h.current_link by omega) hc
      omega
    rw [hc0] at hy0 ⊢
    rw [scanUp, if_pos hy0]
    simp
  have hupc : (h.move_up 0).current_link = h.current_link - 1 :=
    move_up_current_of_scan h 0 hne hscu
  refine ⟨hdown, hupc, ?_⟩
  intro heq
  rw [heq] at hupc
  omega

/-- C10 witness: a three-link sorted handler with the selection on index 1;
`move_down 0` stays at index 1 and `move_up 0` lands on index 0. -/
theorem zero_amount_moves_witness :
    SortedY witC10.links ∧ witC10.current_link < witC10.links.length ∧
      0 < witC10.current_link ∧ yAt witC10.links witC10.current_link < USIZE ∧
      (witC10.move_down 0 = witC10 ∧
        (witC10.move_up 0).current_link = witC10.current_link - 1 ∧
        witC10.move_up 0 ≠ witC10) :=
  ⟨by decide, by decide, by decide, by decide,
    zero_amount_moves witC10 (by decide) (by decide) (by decide) (by decide)⟩

/-- C4 witness: the freshly constructed handler. -/
theorem empty_handler_spec_witness :
    LinkHandler.new.links = [] ∧
      ((∀ n, LinkHandler.new.move_up n = LinkHandler.new) ∧
        (∀ n, LinkHandler.new.move_down n = LinkHandler.new) ∧
        (∀ n, LinkHandler.new.move_left n = LinkHandler.new) ∧
        (∀ n, LinkHandler.new.move_right n = LinkHandler.new) ∧
        (∀ id, LinkHandler.new.set_current_link id = LinkHandler.new) ∧
        LinkHandler.new.registered_links = 0 ∧
        LinkHandler.new.get_current_link = none ∧
        LinkHandler.new.get_current_link_pos = none) :=
  ⟨rfl, empty_handler_spec LinkHandler.new rfl⟩

end LinkHandler

end WikiTui
